import Mathlib

/-!
Shallow embedding of the P02_Handbox evaluation pipeline
(`src/aws_agent`: chunker, embedder, vector store, retrieval assembly,
criterion agents and the evaluation runner), together with proofs
settling the specification claims about it.

Python text values that are sliced and trimmed by the code are modelled
as `List Char` (Python strings are sequences of code points); scores and
embedding coordinates are modelled as `ℚ` (every comparison the code
performs on floats is an exact comparison on the represented values);
code that can raise an exception is modelled in `Except String`.
-/

namespace Handbox

/-- Decidable equality for `Except`, used to evaluate the model on
concrete inputs. -/
instance {ε α : Type} [DecidableEq ε] [DecidableEq α] : DecidableEq (Except ε α)
  | .ok a, .ok b =>
    if h : a = b then .isTrue (by rw [h]) else .isFalse (by simp [h])
  | .ok _, .error _ => .isFalse (by simp)
  | .error _, .ok _ => .isFalse (by simp)
  | .error a, .error b =>
    if h : a = b then .isTrue (by rw [h]) else .isFalse (by simp [h])

/-- Python `str.lstrip`: drop leading whitespace (`chunker.py` uses
`str.strip`, split here into the two one-sided trims). -/
def lstrip (s : List Char) : List Char := s.dropWhile Char.isWhitespace

/-- Python `str.rstrip`: drop trailing whitespace. -/
def rstrip (s : List Char) : List Char := (s.reverse.dropWhile Char.isWhitespace).reverse

/-- Python `str.strip` as used throughout `chunker.py`. -/
def pstrip (s : List Char) : List Char := rstrip (lstrip s)

/-- One entry of the input document's `pages` list
(`{"page_number": int, "full_text": str}`). -/
structure Page where
  page_number : Nat
  full_text : List Char
deriving DecidableEq, Repr

/-- One entry of the optional `table_of_contents` list; both keys are read
with `.get`, so each may be absent. -/
structure TocItem where
  title : Option String
  page : Option Nat
deriving DecidableEq, Repr

/-- The structured input document consumed by `DocumentChunker`
(metadata `tech_id`/`filename`, `pages`, optional `table_of_contents`). -/
structure Document where
  tech_id : String
  file_name : String
  pages : List Page
  toc : List TocItem
deriving DecidableEq, Repr

/-- The `DocumentChunk` dataclass of `chunker.py`.  The Python field
`section` is called `sectionName` here because `section` is a Lean keyword;
`token_count` is always set by the chunker, to `len(chunk_text) // 4`. -/
structure DocumentChunk where
  tech_id : String
  file_name : String
  chunk_index : Nat
  content : List Char
  page_numbers : List Nat
  sectionName : Option String
  token_count : Nat
deriving DecidableEq, Repr

/-- The page marker `f"\n[페이지 {page}]\n"` inserted before each page's text
(`chunk_document`, line 66). -/
def pageMarker (n : Nat) : List Char :=
  '\n' :: ("[페이지 ".data ++ (toString n).data ++ [']', '\n'])

/-- The pages kept by `chunk_document` lines 51-58: those whose `full_text`
is non-empty after stripping. -/
def pageTexts (pages : List Page) : List Page :=
  pages.filter (fun p => !(pstrip p.full_text).isEmpty)

/-- One step of the combined-buffer construction (`chunk_document` lines
60-67): append the page marker and page text, and record the offset at
which the page's contribution starts. -/
def combineStep (acc : List Char × List (Nat × Nat)) (p : Page) :
    List Char × List (Nat × Nat) :=
  (acc.1 ++ pageMarker p.page_number ++ p.full_text,
   acc.2 ++ [(acc.1.length, p.page_number)])

/-- The combined buffer together with the `(position, page_number)` list
(`combined_text` and `page_positions` of `chunk_document`). -/
def buildCombined (pages : List Page) : List Char × List (Nat × Nat) :=
  (pageTexts pages).foldl combineStep ([], [])

/-- The combined buffer of a document. -/
def combinedText (doc : Document) : List Char := (buildCombined doc.pages).1

/-- The recorded page start offsets of a document. -/
def pagePositions (doc : Document) : List (Nat × Nat) := (buildCombined doc.pages).2

/-- The accumulation loop of `_get_pages_in_range`: keep, in first-seen
order and without duplicates, the page numbers whose recorded offset lies
in `[start, stop)`. -/
def pagesInRangeAux (start stop : Nat) :
    List (Nat × Nat) → List Nat → List Nat
  | [], acc => acc
  | (pos, pn) :: rest, acc =>
    if start ≤ pos ∧ pos < stop then
      if pn ∈ acc then pagesInRangeAux start stop rest acc
      else pagesInRangeAux start stop rest (acc ++ [pn])
    else pagesInRangeAux start stop rest acc

/-- `DocumentChunker._get_pages_in_range`, including the `pages or [1]`
fallback. -/
def getPagesInRange (positions : List (Nat × Nat)) (start stop : Nat) : List Nat :=
  let ps := pagesInRangeAux start stop positions []
  if ps.isEmpty then [1] else ps

/-- The fixed `(pattern, label)` table of `_detect_section`.  Every regex in
the source is an alternation of sequences of literal runs separated by
`\s*`; each pattern is represented as its list of alternatives, each
alternative as its list of literal runs. -/
def sectionPatterns : List (List (List String) × String) :=
  [ ([["기술", "개요"]], "기술개요")
  , ([["기존", "기술"], ["문제점"]], "기존기술/문제점")
  , ([["신기술", "내용"]], "신기술내용")
  , ([["비교", "분석"]], "비교분석")
  , ([["성능", "시험"], ["검증"]], "성능시험/검증")
  , ([["현장", "적용"], ["실적"]], "현장적용실적")
  , ([["경제성", "분석"]], "경제성분석")
  , ([["시공", "방법"]], "시공방법")
  , ([["품질"], ["안전", "관리"]], "품질/안전관리")
  , ([["유지", "관리"]], "유지관리")
  , ([["특허"], ["지식", "재산"]], "특허/지식재산권")
  , ([["결론"], ["기대", "효과"]], "결론/기대효과")
  ]

/-- Match a sequence of literal runs separated by `\s*` at the head of `s`.
Greedy whitespace skipping is equivalent to the regex here because every
literal run starts with a non-whitespace character. -/
def matchPieces : List (List Char) → List Char → Bool
  | [], _ => true
  | [lit], s => lit.isPrefixOf s
  | lit :: rest, s =>
    lit.isPrefixOf s && matchPieces rest ((s.drop lit.length).dropWhile Char.isWhitespace)

/-- Regex search: try the piece sequence at every position of `s`. -/
def searchPieces (pieces : List (List Char)) : List Char → Bool
  | [] => matchPieces pieces []
  | c :: rest => matchPieces pieces (c :: rest) || searchPieces pieces rest

/-- `DocumentChunker._detect_section`: first pattern (in table order) whose
some alternative matches somewhere in the first 500 characters wins. -/
def detectSection (text : List Char) : Option String :=
  (sectionPatterns.find? (fun pr =>
      pr.1.any (fun alt => searchPieces (alt.map String.data) (text.take 500)))).map (·.2)

/-- The window start offsets produced by Python's `range(0, n, d)` for a
positive stride `d`: the multiples of `d` below `n`. -/
def windowStarts (n d : Nat) : List Nat :=
  (List.range ((n + d - 1) / d)).map (· * d)

/-- The chunk built from the window starting at offset `i` with index `idx`
(`chunk_document` lines 74-95). -/
def mkWindowChunk (tech file : String) (S : Nat) (positions : List (Nat × Nat))
    (combined : List Char) (i idx : Nat) : DocumentChunk :=
  let ctext := (combined.drop i).take S
  { tech_id := tech
    file_name := file
    chunk_index := idx
    content := pstrip ctext
    page_numbers := getPagesInRange positions i (i + S)
    sectionName := detectSection ctext
    token_count := ctext.length / 4 }

/-- The sliding-window emission loop of `chunk_document` (lines 73-98):
whitespace-only windows are skipped and consume no chunk index. -/
def emitChunks (tech file : String) (S : Nat) (positions : List (Nat × Nat))
    (combined : List Char) : List Nat → Nat → List DocumentChunk
  | [], _ => []
  | i :: rest, idx =>
    if pstrip ((combined.drop i).take S) = [] then
      emitChunks tech file S positions combined rest idx
    else
      mkWindowChunk tech file S positions combined i idx ::
        emitChunks tech file S positions combined rest (idx + 1)

/-- `DocumentChunker.chunk_document` with chunk size `S` and overlap `O`.
The Python stride is the int `S - O`; `range` raises `ValueError` on a zero
step and silently yields the empty range on a negative step. -/
def chunkDocument (S O : Nat) (doc : Document) : Except String (List DocumentChunk) :=
  let combined := combinedText doc
  let positions := pagePositions doc
  if S = O then .error "range() arg 3 must not be zero"
  else if S < O then .ok []
  else .ok (emitChunks doc.tech_id doc.file_name S positions combined
      (windowStarts combined.length (S - O)) 0)

/-- The page-number-to-text map of `_chunk_by_toc` (line 167), a dict
comprehension in which a later page with the same number overwrites an
earlier one. -/
def pageMapLookup (pages : List Page) (n : Nat) : Option (List Char) :=
  (pages.reverse.find? (fun p => p.page_number = n)).map (·.full_text)

/-- `max(page_map.keys())` for a non-empty `pages` list. -/
def maxPageKey (pages : List Page) : Nat :=
  (pages.map (·.page_number)).foldl max 0

/-- Python `range(a, b)` over naturals. -/
def natRangeFromTo (a b : Nat) : List Nat :=
  (List.range (b - a)).map (a + ·)

/-- The emission loop of `_split_large_section` (lines 232-245): the same
whitespace-skipping window walk as `emitChunks`, but stamping every
sub-chunk with the section's page list and title. -/
def emitSectionChunks (tech file : String) (S : Nat) (text : List Char)
    (pages : List Nat) (title : Option String) :
    List Nat → Nat → List DocumentChunk
  | [], _ => []
  | i :: rest, idx =>
    let ctext := (text.drop i).take S
    if pstrip ctext = [] then
      emitSectionChunks tech file S text pages title rest idx
    else
      { tech_id := tech, file_name := file, chunk_index := idx,
        content := pstrip ctext, page_numbers := pages, sectionName := title,
        token_count := ctext.length / 4 } ::
        emitSectionChunks tech file S text pages title rest (idx + 1)

/-- `DocumentChunker._split_large_section`: the same stride loop as
`chunk_document`, run over one section's text, continuing the global chunk
index from `startIdx` and stamping all sub-chunks with the section's pages
and title. -/
def splitLargeSection (S O : Nat) (tech file : String) (text : List Char)
    (startIdx : Nat) (pages : List Nat) (title : Option String) :
    Except String (List DocumentChunk) :=
  if S = O then .error "range() arg 3 must not be zero"
  else if S < O then .ok []
  else .ok (emitSectionChunks tech file S text pages title
      (windowStarts text.length (S - O)) startIdx)

/-- The end page of a table-of-contents entry (`_chunk_by_toc` line 171):
the next entry's `page` when there is one, else `start_page + 5` (also the
default when the next entry has no `page`). -/
def tocEndPage (startPage : Nat) : List TocItem → Nat
  | next :: _ => next.page.getD (startPage + 5)
  | [] => startPage + 5

/-- The pages of one entry's range that are present in the document
(`_chunk_by_toc` lines 176-179), in range order. -/
def tocPnums (pageMap : Nat → Option (List Char)) (maxPage startPage endPage : Nat) :
    List Nat :=
  (natRangeFromTo startPage (min endPage (maxPage + 1))).filter
    (fun p => (pageMap p).isSome)

/-- The concatenated section text of one entry (`section_text`). -/
def tocSectionText (pageMap : Nat → Option (List Char)) (pnums : List Nat) :
    List Char :=
  pnums.foldl (fun acc p => acc ++ '\n' :: ((pageMap p).getD [])) []

/-- The per-entry loop of `_chunk_by_toc` (lines 169-201), carrying the
running chunk index.  For entry `i`, the page range runs from its `page`
(default 1) up to the next entry's `page`, clipped to the largest page
present. -/
def tocLoop (S O : Nat) (tech file : String) (pageMap : Nat → Option (List Char))
    (maxPage : Nat) : List TocItem → Nat → Except String (List DocumentChunk)
  | [], _ => .ok []
  | item :: rest, idx =>
    let pnums := tocPnums pageMap maxPage (item.page.getD 1)
      (tocEndPage (item.page.getD 1) rest)
    let sectionText := tocSectionText pageMap pnums
    if pstrip sectionText = [] then
      tocLoop S O tech file pageMap maxPage rest idx
    else if S * 2 < sectionText.length then do
      let subs ← splitLargeSection S O tech file sectionText idx pnums item.title
      let more ← tocLoop S O tech file pageMap maxPage rest (idx + subs.length)
      return subs ++ more
    else do
      let c : DocumentChunk :=
        { tech_id := tech, file_name := file, chunk_index := idx,
          content := pstrip sectionText, page_numbers := pnums,
          sectionName := item.title, token_count := sectionText.length / 4 }
      let more ← tocLoop S O tech file pageMap maxPage rest (idx + 1)
      return c :: more

/-- `DocumentChunker._chunk_by_toc`.  When the table of contents is
non-empty but the document has no pages, the first iteration's
`max(page_map.keys())` raises `ValueError`. -/
def chunkByToc (S O : Nat) (tech file : String) (toc : List TocItem)
    (pages : List Page) : Except String (List DocumentChunk) :=
  if toc.isEmpty then .ok []
  else if pages.isEmpty then .error "max() arg is an empty sequence"
  else tocLoop S O tech file (pageMapLookup pages) (maxPageKey pages) toc 0

/-- `DocumentChunker.chunk_by_section`: the section-based strategy when a
table of contents exists, otherwise the header-based fallback
(`_chunk_by_headers`), which just re-runs `chunk_document` on the same
document. -/
def chunkBySection (S O : Nat) (doc : Document) : Except String (List DocumentChunk) :=
  if doc.toc.isEmpty then chunkDocument S O doc
  else chunkByToc S O doc.tech_id doc.file_name doc.toc doc.pages

/-- The clipped character ranges `[start, min(start + S, n))` of all
sliding windows over a buffer of length `n`. -/
def windowRanges (S n d : Nat) : List (Nat × Nat) :=
  (windowStarts n d).map (fun i => (i, min (i + S) n))

/-- The window starts surviving the whitespace-only skip of
`chunk_document`: exactly the windows from which chunks are emitted. -/
def keptStarts (S : Nat) (combined : List Char) (starts : List Nat) : List Nat :=
  starts.filter (fun i => !(pstrip ((combined.drop i).take S)).isEmpty)

/-- The clipped character ranges of the chunks emitted by
`chunk_document S O` (its windows that survive the whitespace skip), in
emission order. -/
def chunkRanges (S O : Nat) (doc : Document) : List (Nat × Nat) :=
  let combined := combinedText doc
  (keptStarts S combined (windowStarts combined.length (S - O))).map
    (fun i => (i, min (i + S) combined.length))

/-- One hit returned by `VectorStore.search`: the indexed `_source` fields
the retrieval code reads, plus the relevance score `_score` that both store
implementations attach to every hit. -/
structure SearchResult where
  tech_id : String
  chunk_index : Nat
  content : String
  sectionName : Option String
  page_numbers : List Nat
  score : ℚ
deriving DecidableEq, Repr

/-- The deduplication key `f"{r['tech_id']}_{r['chunk_index']}"` of
`retrieve_context` (line 95). -/
def dedupKey (r : SearchResult) : String :=
  r.tech_id ++ "_" ++ toString r.chunk_index

/-- The seen-set deduplication loop of `retrieve_context` (lines 92-98):
keep the first occurrence of every key. -/
def dedupByKey : List SearchResult → List String → List SearchResult
  | [], _ => []
  | r :: rest, seen =>
    if dedupKey r ∈ seen then dedupByKey rest seen
    else r :: dedupByKey rest (dedupKey r :: seen)

/-- The order used to model `unique_results.sort(key=..., reverse=True)`:
descending by score.  Python's sort is stable, and a stable sort is
extensionally unique, so the stable `insertionSort` below computes exactly
what the Python sort computes. -/
def scoreGE (a b : SearchResult) : Prop := b.score ≤ a.score

instance : DecidableRel scoreGE := fun a b => inferInstanceAs (Decidable (b.score ≤ a.score))

instance : IsTotal SearchResult scoreGE := ⟨fun a b => le_total b.score a.score⟩

instance : IsTrans SearchResult scoreGE :=
  ⟨fun _ _ _ h h' => le_trans h' h⟩

/-- The context rendering of `retrieve_context` (lines 104-112): one
numbered block per surviving result, joined by the visible separator. -/
def renderContext (rs : List SearchResult) : String :=
  String.intercalate "\n---\n" (rs.enum.map (fun p =>
    "[문서 " ++ toString (p.1 + 1) ++ "] (섹션: " ++ p.2.sectionName.getD "알 수 없음" ++
      ", 페이지: " ++ toString p.2.page_numbers ++ ")\n" ++ p.2.content ++ "\n"))

/-- The fields `parse_evaluation_response` reads from the parsed judgment
JSON, each possibly absent (`data.get`). -/
structure JudgeData where
  score : Option ℚ
  evidence : Option (List (List (String × String)))
  comments : Option String
  sub_scores : Option (List (String × ℚ))
deriving DecidableEq

/-- The abstract outcome of the JSON-extraction-and-parse step of
`parse_evaluation_response` (lines 142-156): either the parsed judgment
object, or the failure message of whichever exception the regex search or
`json.loads` raised. -/
inductive ExtractResult where
  | ok (data : JudgeData)
  | fail (msg : String)

/-- The external collaborators of one evaluation run, as the criterion
agents see them.  `embed` is `BedrockEmbedder.embed_query` after its
bounded retries (an `error` is the exception it re-raises); `search` is
`VectorStore.search`, which catches its own exceptions and returns `[]`;
`judge` is `invoke_llm` (an `error` is a raised Bedrock exception);
`extract` is the regex JSON extraction of `parse_evaluation_response`,
whose own exceptions are caught inside that method. -/
structure AgentEnv where
  embed : String → Except String (List ℚ)
  search : List ℚ → String → Nat → List SearchResult
  judge : String → Except String String
  extract : String → ExtractResult

/-- The query loop of `retrieve_context` (lines 79-89): embed each query in
caller-supplied order and pool the per-query search results; a raised
embedding failure aborts the loop and propagates. -/
def pooledResults (env : AgentEnv) (techId : String) (k : Nat) :
    List String → Except String (List SearchResult)
  | [] => .ok []
  | q :: rest => do
    let v ← env.embed q
    let more ← pooledResults env techId k rest
    return env.search v techId k ++ more

/-- Deduplicate, sort descending by score (stably), and truncate to
`k * (number of queries)` (lines 92-105). -/
def assembleResults (pool : List SearchResult) (k nq : Nat) : List SearchResult :=
  (List.insertionSort scoreGE (dedupByKey pool [])).take (k * nq)

/-- `BaseEvaluationAgent.retrieve_context` for an effective `k` (the Python
`k or self.config.retrieval_k` resolution happened at the call). -/
def retrieveContext (env : AgentEnv) (techId : String) (queries : List String)
    (k : Nat) : Except String String := do
  let pool ← pooledResults env techId k queries
  return renderContext (assembleResults pool k queries.length)

/-- The `EvaluationResult` dataclass of `base_agent.py`. -/
structure EvaluationResult where
  criterion : String
  score : ℚ
  grade : String
  evidence : List (List (String × String))
  comments : String
  pass_status : Bool
  sub_scores : Option (List (String × ℚ))
deriving DecidableEq

/-- The floor of a rational, written out computably (`num / den` with
Euclidean division; the denominator is positive, so this is the floor). -/
def ratFloor (q : ℚ) : ℤ := Int.ediv q.num q.den

/-- Python's built-in `round` (round half to even), applied to the score
before the grade lookup.  The fractional part `q - floor q` is compared
with `1/2` by cross-multiplication with the positive denominator, keeping
the computation in integer arithmetic. -/
def pyRound (q : ℚ) : ℤ :=
  let f := ratFloor q
  let r2 := 2 * (q.num - f * q.den)
  if r2 < (q.den : ℤ) then f
  else if (q.den : ℤ) < r2 then f + 1
  else if f % 2 = 0 then f else f + 1

/-- The `GRADE_MAP` lookup with default `"보통"`
(`GRADE_MAP.get(round(score), "보통")`). -/
def gradeMap (z : ℤ) : String :=
  if z = 5 then "우수"
  else if z = 4 then "양호"
  else if z = 3 then "보통"
  else if z = 2 then "미흡"
  else if z = 1 then "불인정"
  else "보통"

/-- `BaseEvaluationAgent.parse_evaluation_response` (lines 139-182): on a
successful extraction, score defaults to 3, the grade is looked up from the
rounded score, and the pass flag is `score >= 3`; any extraction failure
yields the `"파싱오류"` zero-score result carrying the first 500 characters
of the raw response. -/
def parseEvaluationResponse (criterionName : String)
    (extract : String → ExtractResult) (response : String) : EvaluationResult :=
  match extract response with
  | .ok data =>
    let score := data.score.getD 3
    { criterion := criterionName
      score := score
      grade := gradeMap (pyRound score)
      evidence := data.evidence.getD []
      comments := data.comments.getD ""
      pass_status := decide (3 ≤ score)
      sub_scores := data.sub_scores }
  | .fail _ =>
    { criterion := criterionName
      score := 0
      grade := "파싱오류"
      evidence := []
      comments := "응답 파싱 실패: " ++ response.take 500
      pass_status := false
      sub_scores := none }

/-- The short-circuit result `evaluate` returns when the assembled context
is empty (lines 192-200). -/
def searchFailedResult (criterionName : String) : EvaluationResult :=
  { criterion := criterionName
    score := 0
    grade := "검색실패"
    evidence := []
    comments := "관련 문서를 찾을 수 없습니다."
    pass_status := false
    sub_scores := none }

/-- A per-criterion agent: its `criterion_name`, `_get_search_queries`
list, and `_get_evaluation_prompt` builder (context, tech id → prompt). -/
structure AgentSpec where
  criterionName : String
  queries : List String
  buildPrompt : String → String → String

/-- `BaseEvaluationAgent.evaluate` (lines 184-212): retrieve the context;
on an empty context short-circuit to the search-failed result, otherwise
invoke the judgment service and parse its response.  Raised embedding or
judgment exceptions propagate. -/
def evaluateAgent (env : AgentEnv) (ag : AgentSpec) (k : Nat) (techId : String) :
    Except String EvaluationResult := do
  let context ← retrieveContext env techId ag.queries k
  if context.isEmpty then
    return searchFailedResult ag.criterionName
  else do
    let response ← env.judge (ag.buildPrompt context techId)
    return parseEvaluationResponse ag.criterionName env.extract response

/-- `NoveltyEvaluationAgent`: criterion `"신규성"` with its four search
queries (`novelty_agent.py` lines 108-114); the prompt text itself is a
parameter, per the spec's non-goal of reproducing prompt wording. -/
def noveltyAgent (bp : String → String → String) : AgentSpec :=
  { criterionName := "신규성"
    queries := ["선행기술조사 기존기술 비교 차별성", "특허 지식재산권 등록 출원",
      "독자개발 독창 신규 최초", "기술 차별화 요소 핵심기술"]
    buildPrompt := bp }

/-- `ProgressEvaluationAgent`: criterion `"진보성"` with its five search
queries (`progress_agent.py` lines 128-135). -/
def progressAgent (bp : String → String → String) : AgentSpec :=
  { criterionName := "진보성"
    queries := ["성능 시험 품질 향상 개선 효과", "공인기관 시험성적서 KICT KTR",
      "구조계산서 안전성 시험 인증", "스마트건설 ICT IoT AI 첨단기술",
      "기존기술 문제점 해결 개량 개선"]
    buildPrompt := bp }

/-- `FieldExcellenceAgent`: criterion `"현장적용성"` with its seven search
queries (`field_agent.py` lines 163-172). -/
def fieldAgent (bp : String → String → String) : AgentSpec :=
  { criterionName := "현장적용성"
    queries := ["현장적용 실적 시공사례 발주처", "시공성 시공방법 작업 효율",
      "비용 절감 공사비 원가계산서", "공기단축 공사기간 공정", "유지관리 보수 점검",
      "환경 친환경 소음 진동 저감", "시장성 수요 보급 적용분야"]
    buildPrompt := bp }

/-- The `summary` dict built by `EvaluationRunner._generate_summary`. -/
structure Summary where
  overall_grade : String
  score_out_of_100 : ℚ
  strong_points : List String
  weak_points : List String
  recommendations : List String
deriving DecidableEq

/-- `EvaluationRunner._generate_summary` (lines 156-190) over the merged
criterion results in dict-insertion order (novelty, progressiveness,
field applicability). -/
def generateSummary (results : List EvaluationResult) (overallScore : ℚ)
    (overallPass : Bool) : Summary :=
  { overall_grade := if overallPass then "통과" else "미통과"
    score_out_of_100 := overallScore
    strong_points := (results.filter (fun r => decide (4 ≤ r.score))).map
      (fun r => r.criterion ++ ": " ++ r.grade)
    weak_points := (results.filter (fun r => decide (r.score < 3))).map
      (fun r => r.criterion ++ ": " ++ r.grade)
    recommendations := (results.filter (fun r => !r.pass_status)).map
      (fun r => r.criterion ++ " 보완 필요: " ++ r.comments.take 100) }

/-- The `FullEvaluationResult` of `runner.py`, with the per-stage dicts
flattened into fields.  The wall-clock `evaluation_date` field is omitted
(an impure timestamp with no algorithmic content). -/
structure FullEvaluationResult where
  tech_id : String
  novelty : EvaluationResult
  progressiveness : EvaluationResult
  field_applicability : EvaluationResult
  stage1_total_score : ℚ
  stage1_pass : Bool
  stage2_total_score : ℚ
  stage2_pass : Bool
  overall_score : ℚ
  overall_pass : Bool
  summary : Summary
deriving DecidableEq

/-- `EvaluationRunner.run_full_evaluation` (lines 101-154): run the three
criterion evaluations in order (novelty and progressiveness in Stage 1,
field applicability in Stage 2), then aggregate the scores, the pass
verdict and the summary.  The runner itself installs no exception handler,
so any exception raised by an evaluation propagates. -/
def runFullEvaluation (env : AgentEnv) (nov prog fld : AgentSpec) (k : Nat)
    (techId : String) : Except String FullEvaluationResult := do
  let novR ← evaluateAgent env nov k techId
  let progR ← evaluateAgent env prog k techId
  let fldR ← evaluateAgent env fld k techId
  let stage1Score := (novR.score * (1/2) + progR.score * (1/2)) * 10
  let stage2Score := fldR.score * 10
  let overallScore := stage1Score + stage2Score
  let overallPass := novR.pass_status && progR.pass_status && fldR.pass_status &&
    decide (70 ≤ overallScore)
  return { tech_id := techId
           novelty := novR
           progressiveness := progR
           field_applicability := fldR
           stage1_total_score := stage1Score
           stage1_pass := novR.pass_status && progR.pass_status
           stage2_total_score := stage2Score
           stage2_pass := fldR.pass_status
           overall_score := overallScore
           overall_pass := overallPass
           summary := generateSummary [novR, progR, fldR] overallScore overallPass }

/-- A chunk record after `create_embeddings_batch`: `chunk.to_dict()` plus
the `embedding` vector and, on failure, the `embedding_error` marker.  An
empty `embedding` also models a record with the key missing: the store's
skip test `not doc.get("embedding")` treats the two identically. -/
structure EmbeddedChunk where
  tech_id : String
  file_name : String
  chunk_index : Nat
  content : List Char
  page_numbers : List Nat
  sectionName : Option String
  token_count : Nat
  embedding : List ℚ
  embedding_error : Option String
deriving DecidableEq

/-- `BedrockEmbedder.create_embedding`: truncate to 25000 characters, then
call the external service.  `service` is the Bedrock call after the
decorator's bounded retries: an `error` is the exception re-raised once the
3 attempts are exhausted. -/
def createEmbedding (service : List Char → Except String (List ℚ))
    (text : List Char) : Except String (List ℚ) :=
  service (text.take 25000)

/-- The per-chunk body of the `create_embeddings_batch` loop (lines 63-81):
on success attach the vector; on failure attach the empty vector and the
error marker, and keep the record. -/
def embedChunk (service : List Char → Except String (List ℚ))
    (c : DocumentChunk) : EmbeddedChunk :=
  match createEmbedding service c.content with
  | .ok v =>
    { tech_id := c.tech_id, file_name := c.file_name, chunk_index := c.chunk_index,
      content := c.content, page_numbers := c.page_numbers,
      sectionName := c.sectionName, token_count := c.token_count,
      embedding := v, embedding_error := none }
  | .error e =>
    { tech_id := c.tech_id, file_name := c.file_name, chunk_index := c.chunk_index,
      content := c.content, page_numbers := c.page_numbers,
      sectionName := c.sectionName, token_count := c.token_count,
      embedding := [], embedding_error := some e }

/-- `BedrockEmbedder.create_embeddings_batch`: iterate the chunks in order,
isolating each chunk's failure (the loop body's `try`/`except`). -/
def createEmbeddingsBatch (service : List Char → Except String (List ℚ)) :
    List DocumentChunk → List EmbeddedChunk
  | [] => []
  | c :: rest => embedChunk service c :: createEmbeddingsBatch service rest

/-- The OpenSearch document id `f"{doc['tech_id']}_{doc['chunk_index']}"`
used as the bulk `_id` (`index_documents`, line 135). -/
def docId (d : EmbeddedChunk) : String :=
  d.tech_id ++ "_" ++ toString d.chunk_index

/-- The persisted index, as id-keyed documents in insertion order. -/
abbrev VStore := List (String × EmbeddedChunk)

/-- Overwrite-by-id insertion: how OpenSearch applies one bulk `index`
action for a given `_id`. -/
def upsert (store : VStore) (op : String × EmbeddedChunk) : VStore :=
  if store.any (fun e => e.1 = op.1) then
    store.map (fun e => if e.1 = op.1 then op else e)
  else store ++ [op]

/-- Application of a whole bulk body to the index, action by action. -/
def bulkApply (store : VStore) (ops : List (String × EmbeddedChunk)) : VStore :=
  ops.foldl upsert store

/-- The bulk body of one batch (`index_documents` lines 126-139): one
id-keyed action per document of the batch whose embedding is non-empty. -/
def batchOps (batch : List EmbeddedChunk) : List (String × EmbeddedChunk) :=
  (batch.filter (fun d => !d.embedding.isEmpty)).map (fun d => (docId d, d))

/-- The per-batch body of `index_documents` (lines 122-151).  `bulkErrors`
models the external bulk call: `false` is a response without errors (the
only case in which the code adds to the count — and it adds the whole
batch's length, skipped documents included); `true` covers both an
`errors` response and a raised exception, which leave the count unchanged.
The store effect is modelled as applying the bulk body. -/
def indexBatch (bulkErrors : List (String × EmbeddedChunk) → Bool)
    (acc : Nat × VStore) (batch : List EmbeddedChunk) : Nat × VStore :=
  let ops := batchOps batch
  if ops.isEmpty then acc
  else if bulkErrors ops then (acc.1, bulkApply acc.2 ops)
  else (acc.1 + batch.length, bulkApply acc.2 ops)

/-- `OpenSearchVectorStore.index_documents` for a positive `batchSize`
(the Python default is 100): walk the documents in batches and return the
final `indexed_count` together with the updated index. -/
def indexDocuments (bulkErrors : List (String × EmbeddedChunk) → Bool)
    (batchSize : Nat) (docs : List EmbeddedChunk) (store : VStore) : Nat × VStore :=
  ((windowStarts docs.length batchSize).map
      (fun i => (docs.drop i).take batchSize)).foldl (indexBatch bulkErrors) (0, store)

/-- `LocalVectorStore.index_documents`: extend the in-memory list with all
records and return the input length. -/
def localIndexDocuments (docs : List EmbeddedChunk) (store : List EmbeddedChunk) :
    Nat × List EmbeddedChunk :=
  (docs.length, store ++ docs)

/-- The invariants claimed for every emitted chunk list: contiguous indices
from 0, contents non-empty after trimming, non-empty page lists. -/
def chunkInvariant (chunks : List DocumentChunk) : Prop :=
  chunks.map (·.chunk_index) = List.range chunks.length
  ∧ ∀ c ∈ chunks, pstrip c.content ≠ [] ∧ c.page_numbers ≠ []

/-- The record `run_full_evaluation` assembles from the three criterion
results (lines 113-151), named so that statements about the runner can
refer to it. -/
def mkFullResult (techId : String) (eN eP eF : EvaluationResult) : FullEvaluationResult :=
  { tech_id := techId
    novelty := eN
    progressiveness := eP
    field_applicability := eF
    stage1_total_score := (eN.score * (1/2) + eP.score * (1/2)) * 10
    stage1_pass := eN.pass_status && eP.pass_status
    stage2_total_score := eF.score * 10
    stage2_pass := eF.pass_status
    overall_score := (eN.score * (1/2) + eP.score * (1/2)) * 10 + eF.score * 10
    overall_pass := eN.pass_status && eP.pass_status && eF.pass_status &&
      decide (70 ≤ (eN.score * (1/2) + eP.score * (1/2)) * 10 + eF.score * 10)
    summary := generateSummary [eN, eP, eF]
      ((eN.score * (1/2) + eP.score * (1/2)) * 10 + eF.score * 10)
      (eN.pass_status && eP.pass_status && eF.pass_status &&
        decide (70 ≤ (eN.score * (1/2) + eP.score * (1/2)) * 10 + eF.score * 10)) }

/-! ### Concrete inputs used by witnesses and counterexamples -/

/-- A one-page document whose page text is `"a    b"`; its combined buffer
is `"\n[페이지 1]\na    b"` (15 characters), and with chunk size 3 and
overlap 1 the window at offset 10 is whitespace-only. -/
def doc6 : Document :=
  { tech_id := "t", file_name := "f",
    pages := [{ page_number := 1, full_text := "a    b".data }], toc := [] }

/-- A concrete search hit. -/
def rA : SearchResult :=
  { tech_id := "T", chunk_index := 0, content := "first", sectionName := none,
    page_numbers := [1], score := 5 }

/-- A hit with a different key but the same score as `rA` (a tie). -/
def rB : SearchResult :=
  { tech_id := "T", chunk_index := 1, content := "second", sectionName := none,
    page_numbers := [1], score := 5 }

/-- A hit with the same key as `rA` and a higher score, arriving later. -/
def rC : SearchResult :=
  { tech_id := "T", chunk_index := 0, content := "dup", sectionName := none,
    page_numbers := [2], score := 7 }

/-- A concrete prompt builder. -/
def samplePrompt : String → String → String := fun c t => c ++ t

/-- An environment in which every service succeeds and every judgment
response parses to the score-3 judgment object. -/
def okEnv : AgentEnv :=
  { embed := fun _ => .ok [1]
    search := fun _ _ _ => [rA]
    judge := fun _ => .ok "resp"
    extract := fun _ =>
      .ok { score := some 3, evidence := none, comments := none, sub_scores := none } }

/-- Like `okEnv` but the judgment service raises. -/
def badJudgeEnv : AgentEnv := { okEnv with judge := fun _ => .error "ServiceUnavailable" }

/-- Like `okEnv` but every search returns no hits. -/
def emptySearchEnv : AgentEnv := { okEnv with search := fun _ _ _ => [] }

/-- An environment pooling `[rA, rB, rC]` for the single query `"q"`. -/
def env5 : AgentEnv := { okEnv with search := fun _ _ _ => [rA, rB, rC] }

/-- A placeholder criterion result (only used as a `getD` default). -/
def dummyResult : EvaluationResult :=
  { criterion := "", score := 0, grade := "", evidence := [], comments := "",
    pass_status := false, sub_scores := none }

/-- A placeholder full result (only used as a `getD` default). -/
def dummyFull : FullEvaluationResult :=
  { tech_id := "", novelty := dummyResult, progressiveness := dummyResult,
    field_applicability := dummyResult, stage1_total_score := 0, stage1_pass := false,
    stage2_total_score := 0, stage2_pass := false, overall_score := 0,
    overall_pass := false,
    summary := { overall_grade := "", score_out_of_100 := 0, strong_points := [],
                 weak_points := [], recommendations := [] } }

/-- The concrete outcome of the all-services-succeed run. -/
def c1res : FullEvaluationResult :=
  (runFullEvaluation okEnv (noveltyAgent samplePrompt) (progressAgent samplePrompt)
    (fieldAgent samplePrompt) 10 "T1").toOption.getD dummyFull

/-- The concrete outcome of the empty-search run. -/
def c7res : FullEvaluationResult :=
  (runFullEvaluation emptySearchEnv (noveltyAgent samplePrompt) (progressAgent samplePrompt)
    (fieldAgent samplePrompt) 10 "T1").toOption.getD dummyFull

/-- A chunk whose content the embedding service accepts. -/
def c8good : DocumentChunk :=
  { tech_id := "t", file_name := "f", chunk_index := 0, content := "good".data,
    page_numbers := [1], sectionName := none, token_count := 1 }

/-- A chunk whose content the embedding service rejects. -/
def c8bad : DocumentChunk :=
  { tech_id := "t", file_name := "f", chunk_index := 1, content := "bad".data,
    page_numbers := [1], sectionName := none, token_count := 1 }

/-- An embedding service failing exactly on `"bad"`. -/
def c8service : List Char → Except String (List ℚ) :=
  fun t => if t = "bad".data then .error "boom" else .ok [1]

/-- An extraction that always succeeds with a score-less judgment object. -/
def c10extract : String → ExtractResult :=
  fun _ => .ok { score := none, evidence := none, comments := none, sub_scores := none }

/-- An embedded record carrying a vector. -/
def dGood : EmbeddedChunk :=
  { tech_id := "t", file_name := "f", chunk_index := 0, content := "good".data,
    page_numbers := [1], sectionName := none, token_count := 1,
    embedding := [1], embedding_error := none }

/-- An embedded record whose vector is empty (an embedding failure). -/
def dEmpty : EmbeddedChunk :=
  { tech_id := "t", file_name := "f", chunk_index := 1, content := "bad".data,
    page_numbers := [1], sectionName := none, token_count := 1,
    embedding := [], embedding_error := some "boom" }

/-! ### Properties of the trimming functions -/

theorem dropWhile_dropWhile (p : α → Bool) (l : List α) :
    (l.dropWhile p).dropWhile p = l.dropWhile p := by
  induction l with
  | nil => rfl
  | cons a t ih =>
    by_cases h : p a
    · simp [List.dropWhile_cons, h, ih]
    · simp [List.dropWhile_cons, h]

theorem dropWhile_suffix (p : α → Bool) (l : List α) : l.dropWhile p <:+ l := by
  induction l with
  | nil => exact List.suffix_rfl
  | cons a t ih =>
    by_cases h : p a
    · simpa [List.dropWhile_cons, h] using ih.trans (List.suffix_cons a t)
    · simp [List.dropWhile_cons, h]

theorem lstrip_idem (s : List Char) : lstrip (lstrip s) = lstrip s :=
  dropWhile_dropWhile _ s

theorem rstrip_idem (s : List Char) : rstrip (rstrip s) = rstrip s := by
  simp [rstrip, dropWhile_dropWhile]

theorem rstrip_pre (s : List Char) : rstrip s <+: s := by
  have h := dropWhile_suffix (Char.isWhitespace) s.reverse
  rw [show s.reverse.dropWhile Char.isWhitespace = (rstrip s).reverse by
    simp [rstrip]] at h
  exact List.reverse_suffix.mp h

theorem lstrip_head_not_space {c : Char} {t : List Char}
    (h : lstrip (c :: t) = c :: t) : ¬ c.isWhitespace := by
  intro hc
  have h1 : lstrip (c :: t) = lstrip t := by simp [lstrip, List.dropWhile_cons, hc]
  have h2 : (lstrip t).length ≤ t.length := (dropWhile_suffix _ t).sublist.length_le
  rw [h1] at h
  have := congrArg List.length h
  simp at this
  omega

theorem lstrip_rstrip_of_lstrip_fixed {s : List Char} (h : lstrip s = s) :
    lstrip (rstrip s) = rstrip s := by
  cases s with
  | nil => rfl
  | cons c t =>
    have hc : ¬ c.isWhitespace := lstrip_head_not_space h
    rcases hr : rstrip (c :: t) with _ | ⟨d, u⟩
    · rfl
    · have hpre := rstrip_pre (c :: t)
      rw [hr] at hpre
      obtain ⟨r, hrr⟩ := hpre
      have hd : d = c := by
        have := congrArg (fun l => l.head?) hrr
        simpa using this
      subst hd
      simp [lstrip, List.dropWhile_cons, hc]

theorem pstrip_idem (s : List Char) : pstrip (pstrip s) = pstrip s := by
  unfold pstrip
  rw [lstrip_rstrip_of_lstrip_fixed (lstrip_idem s), rstrip_idem]

/-! ### Chunk list invariants -/

theorem getPagesInRange_ne_nil (positions : List (Nat × Nat)) (start stop : Nat) :
    getPagesInRange positions start stop ≠ [] := by
  unfold getPagesInRange
  by_cases h : (pagesInRangeAux start stop positions []).isEmpty
  · simp [h]
  · simpa [h] using by simpa [List.isEmpty_iff] using h


theorem emitChunks_idx (t f : String) (S : Nat) (pos : List (Nat × Nat))
    (comb : List Char) : ∀ (starts : List Nat) (idx : Nat),
    (emitChunks t f S pos comb starts idx).map (·.chunk_index)
      = List.range' idx (emitChunks t f S pos comb starts idx).length
  | [], idx => by simp [emitChunks]
  | i :: rest, idx => by
    by_cases h : pstrip ((comb.drop i).take S) = []
    · simpa [emitChunks, h] using emitChunks_idx t f S pos comb rest idx
    · simp [emitChunks, h, mkWindowChunk, emitChunks_idx t f S pos comb rest (idx + 1),
        List.range'_succ]

theorem emitChunks_mem (t f : String) (S : Nat) (pos : List (Nat × Nat))
    (comb : List Char) : ∀ (starts : List Nat) (idx : Nat) (c : DocumentChunk),
    c ∈ emitChunks t f S pos comb starts idx →
    pstrip c.content ≠ [] ∧ c.page_numbers ≠ []
  | [], _, c, hc => by simp [emitChunks] at hc
  | i :: rest, idx, c, hc => by
    by_cases h : pstrip ((comb.drop i).take S) = []
    · rw [emitChunks, if_pos h] at hc
      exact emitChunks_mem t f S pos comb rest idx c hc
    · rw [emitChunks, if_neg h] at hc
      rcases List.mem_cons.mp hc with hc | hc
      · subst hc
        refine ⟨?_, getPagesInRange_ne_nil _ _ _⟩
        simpa [mkWindowChunk, pstrip_idem] using h
      · exact emitChunks_mem t f S pos comb rest (idx + 1) c hc

theorem chunkDocument_invariant {S O : Nat} {doc : Document}
    {chunks : List DocumentChunk} (h : chunkDocument S O doc = .ok chunks) :
    chunkInvariant chunks := by
  unfold chunkDocument at h
  by_cases h1 : S = O
  · simp [h1] at h
  · by_cases h2 : S < O
    · simp [h1, h2] at h
      subst h
      exact ⟨by simp, by simp⟩
    · simp [h1, h2] at h
      subst h
      constructor
      · rw [emitChunks_idx, List.range_eq_range']
      · intro c hc
        exact emitChunks_mem _ _ _ _ _ _ _ c hc

theorem emitSectionChunks_idx (t f : String) (S : Nat) (text : List Char)
    (pages : List Nat) (title : Option String) :
    ∀ (starts : List Nat) (idx : Nat),
    (emitSectionChunks t f S text pages title starts idx).map (·.chunk_index)
      = List.range' idx (emitSectionChunks t f S text pages title starts idx).length
  | [], idx => by simp [emitSectionChunks]
  | i :: rest, idx => by
    by_cases h : pstrip ((text.drop i).take S) = []
    · simpa [emitSectionChunks, h] using
        emitSectionChunks_idx t f S text pages title rest idx
    · simp [emitSectionChunks, h,
        emitSectionChunks_idx t f S text pages title rest (idx + 1), List.range'_succ]

theorem emitSectionChunks_mem (t f : String) (S : Nat) (text : List Char)
    (pages : List Nat) (title : Option String) :
    ∀ (starts : List Nat) (idx : Nat) (c : DocumentChunk),
    c ∈ emitSectionChunks t f S text pages title starts idx →
    pstrip c.content ≠ [] ∧ c.page_numbers = pages
  | [], _, c, hc => by simp [emitSectionChunks] at hc
  | i :: rest, idx, c, hc => by
    by_cases h : pstrip ((text.drop i).take S) = []
    · rw [emitSectionChunks, if_pos h] at hc
      exact emitSectionChunks_mem t f S text pages title rest idx c hc
    · rw [emitSectionChunks, if_neg h] at hc
      rcases List.mem_cons.mp hc with hc | hc
      · subst hc
        exact ⟨by simpa [pstrip_idem] using h, rfl⟩
      · exact emitSectionChunks_mem t f S text pages title rest (idx + 1) c hc

theorem splitLargeSection_ok {S O : Nat} {tech file : String} {text : List Char}
    {startIdx : Nat} {pages : List Nat} {title : Option String}
    {chunks : List DocumentChunk}
    (h : splitLargeSection S O tech file text startIdx pages title = .ok chunks) :
    chunks.map (·.chunk_index) = List.range' startIdx chunks.length
    ∧ ∀ c ∈ chunks, pstrip c.content ≠ [] ∧ c.page_numbers = pages := by
  unfold splitLargeSection at h
  by_cases h1 : S = O
  · simp [h1] at h
  · by_cases h2 : S < O
    · simp [h1, h2] at h
      subst h
      exact ⟨by simp, by simp⟩
    · simp [h1, h2] at h
      subst h
      exact ⟨emitSectionChunks_idx _ _ _ _ _ _ _ _,
        fun c hc => emitSectionChunks_mem _ _ _ _ _ _ _ _ c hc⟩

theorem tocLoop_ok {S O : Nat} {tech file : String}
    {pageMap : Nat → Option (List Char)} {maxPage : Nat} :
    ∀ {toc : List TocItem} {idx : Nat} {chunks : List DocumentChunk},
    tocLoop S O tech file pageMap maxPage toc idx = .ok chunks →
    chunks.map (·.chunk_index) = List.range' idx chunks.length
    ∧ ∀ c ∈ chunks, pstrip c.content ≠ [] ∧ c.page_numbers ≠ []
  | [], idx, chunks, h => by
    simp [tocLoop] at h
    subst h
    exact ⟨by simp, by simp⟩
  | item :: rest, idx, chunks, h => by
    rw [tocLoop] at h
    set pnums := tocPnums pageMap maxPage (item.page.getD 1)
      (tocEndPage (item.page.getD 1) rest) with hpn
    set sectionText := tocSectionText pageMap pnums with hst
    have hpnil : pnums = [] → sectionText = [] := by
      intro hp
      rw [hst, hp]
      rfl
    by_cases hskip : pstrip sectionText = []
    · rw [if_pos hskip] at h
      exact tocLoop_ok h
    · rw [if_neg hskip] at h
      by_cases hbig : S * 2 < sectionText.length
      · rw [if_pos hbig] at h
        rcases hs : splitLargeSection S O tech file sectionText idx pnums item.title
          with e | subs
        · rw [hs] at h
          simp [bind, Except.bind] at h
        · rw [hs] at h
          simp only [bind, Except.bind] at h
          rcases hm : tocLoop S O tech file pageMap maxPage rest (idx + subs.length)
            with e | more
          · rw [hm] at h
            simp [Functor.map, Except.map] at h
          · rw [hm] at h
            simp only [Functor.map, Except.map, pure, Except.pure, Except.ok.injEq] at h
            subst h
            obtain ⟨hsi, hsm⟩ := splitLargeSection_ok hs
            obtain ⟨hmi, hmm⟩ := tocLoop_ok hm
            constructor
            · rw [List.map_append, hsi, hmi, List.length_append]
              have h1 := List.range'_append idx subs.length more.length 1
              rw [one_mul, Nat.add_comm more.length subs.length] at h1
              exact h1
            · intro c hc
              rcases List.mem_append.mp hc with hc | hc
              · obtain ⟨h1, h2⟩ := hsm c hc
                refine ⟨h1, ?_⟩
                rw [h2]
                intro hpe
                exact hskip (by rw [hpnil hpe] ; rfl)
              · exact hmm c hc
      · rw [if_neg hbig] at h
        rcases hm : tocLoop S O tech file pageMap maxPage rest (idx + 1) with e | more
        · rw [hm] at h
          simp [bind, Except.bind] at h
        · rw [hm] at h
          simp only [bind, Except.bind, pure, Except.pure, Except.ok.injEq] at h
          subst h
          obtain ⟨hmi, hmm⟩ := tocLoop_ok hm
          constructor
          · simp only [List.map_cons, hmi, List.length_cons]
            rw [List.range'_succ]
          · intro c hc
            rcases List.mem_cons.mp hc with hc | hc
            · subst hc
              refine ⟨by simpa [pstrip_idem] using hskip, ?_⟩
              intro hpe
              exact hskip (by rw [hpnil hpe] ; rfl)
            · exact hmm c hc

theorem chunkByToc_invariant {S O : Nat} {tech file : String} {toc : List TocItem}
    {pages : List Page} {chunks : List DocumentChunk}
    (h : chunkByToc S O tech file toc pages = .ok chunks) : chunkInvariant chunks := by
  unfold chunkByToc at h
  by_cases h1 : toc.isEmpty
  · simp [h1] at h
    subst h
    exact ⟨by simp, by simp⟩
  · by_cases h2 : pages.isEmpty
    · simp [h1, h2] at h
    · simp only [h1, h2, if_false] at h
      obtain ⟨hi, hm⟩ := tocLoop_ok h
      exact ⟨by rw [hi, List.range_eq_range'], hm⟩

theorem chunkBySection_invariant {S O : Nat} {doc : Document}
    {chunks : List DocumentChunk} (h : chunkBySection S O doc = .ok chunks) :
    chunkInvariant chunks := by
  unfold chunkBySection at h
  by_cases h1 : doc.toc.isEmpty
  · rw [if_pos h1] at h
    exact chunkDocument_invariant h
  · rw [if_neg h1] at h
    exact chunkByToc_invariant h

/-! ### Window-start arithmetic -/

theorem length_windowStarts (n d : Nat) :
    (windowStarts n d).length = (n + d - 1) / d := by
  simp [windowStarts]

theorem windowStarts_get? {n d : Nat} (j : Nat) (hj : j < (n + d - 1) / d) :
    (windowStarts n d).get? j = some (j * d) := by
  unfold windowStarts
  rw [List.get?_map, List.get?_range hj]
  rfl

theorem mem_windowStarts_lt {n d i : Nat} (hd : 0 < d) (hi : i ∈ windowStarts n d) :
    i < n := by
  unfold windowStarts at hi
  obtain ⟨j, hj, rfl⟩ := List.mem_map.mp hi
  rw [List.mem_range] at hj
  have h1 : (j + 1) * d ≤ n + d - 1 :=
    (Nat.le_div_iff_mul_le hd).mp hj
  have h2 : j * d + d = (j + 1) * d := by ring
  omega

theorem lt_numWindows_iff {n d : Nat} (hd : 0 < d) (j : Nat) :
    j < (n + d - 1) / d ↔ j * d < n := by
  rw [Nat.lt_iff_add_one_le, Nat.le_div_iff_mul_le hd]
  have h1 : (j + 1) * d = j * d + d := by ring
  omega

theorem emitChunks_contents (t f : String) (S : Nat) (pos : List (Nat × Nat))
    (comb : List Char) : ∀ (starts : List Nat) (idx : Nat),
    (emitChunks t f S pos comb starts idx).map (·.content)
      = (keptStarts S comb starts).map (fun i => pstrip ((comb.drop i).take S))
  | [], _ => by simp [emitChunks, keptStarts]
  | i :: rest, idx => by
    by_cases h : pstrip ((comb.drop i).take S) = []
    · have hk : keptStarts S comb (i :: rest) = keptStarts S comb rest := by
        unfold keptStarts
        rw [List.filter_cons, if_neg (by simp [h])]
      rw [emitChunks, if_pos h, hk]
      exact emitChunks_contents t f S pos comb rest idx
    · have hk : keptStarts S comb (i :: rest) = i :: keptStarts S comb rest := by
        unfold keptStarts
        rw [List.filter_cons, if_pos (by simp [List.isEmpty_iff, h])]
      rw [emitChunks, if_neg h, hk, List.map_cons, List.map_cons]
      rw [emitChunks_contents t f S pos comb rest (idx + 1)]
      rfl

theorem windowStarts_cover {n d p : Nat} (hd : 0 < d) (hp : p < n) :
    ∃ i ∈ windowStarts n d, i ≤ p ∧ p < i + d := by
  refine ⟨p / d * d, ?_, Nat.div_mul_le_self p d, ?_⟩
  · unfold windowStarts
    refine List.mem_map.mpr ⟨p / d, List.mem_range.mpr ?_, rfl⟩
    rw [Nat.lt_iff_add_one_le, Nat.le_div_iff_mul_le hd]
    have h1 : p / d * d ≤ p := Nat.div_mul_le_self p d
    have h2 : (p / d + 1) * d = p / d * d + d := by ring
    omega
  · have h1 : d * (p / d) + p % d = p := Nat.div_add_mod p d
    have h2 : p % d < d := Nat.mod_lt _ hd
    have h3 : d * (p / d) = p / d * d := by ring
    omega

theorem windowStarts_zero_len (d : Nat) : windowStarts 0 d = [] := by
  unfold windowStarts
  rcases Nat.eq_zero_or_pos d with hd | hd
  · subst hd
    simp
  · rw [Nat.div_eq_of_lt (by omega)]
    simp

theorem windowStarts_pos {n d : Nat} (hd : 0 < d) (hn : 0 < n) :
    windowStarts n d = 0 :: (windowStarts (n - d) d).map (· + d) := by
  unfold windowStarts
  have h1 : n + d - 1 = (n - 1) + d := by omega
  have h2 : (n - d + d - 1) / d = (n - 1) / d := by
    rcases Nat.lt_or_ge n (d + 1) with hc | hc
    · have e1 : n - d = 0 := by omega
      rw [e1]
      have e2 : 0 + d - 1 = d - 1 := by omega
      rw [e2, Nat.div_eq_of_lt (by omega), Nat.div_eq_of_lt (by omega)]
    · have e1 : n - d + d - 1 = n - 1 := by omega
      rw [e1]
  rw [h1, Nat.add_div_right _ hd, h2, List.range_succ_eq_map, List.map_cons,
    List.map_map, List.map_map]
  refine congrArg₂ _ (by simp) ?_
  apply List.map_congr_left
  intro j _
  simp [Function.comp, Nat.succ_mul]

theorem batches_join {α : Type} {d : Nat} (hd : 0 < d) (l : List α) :
    ((windowStarts l.length d).map (fun i => (l.drop i).take d)).join = l := by
  have main : ∀ (n : Nat) (l : List α), l.length = n →
      ((windowStarts l.length d).map (fun i => (l.drop i).take d)).join = l := by
    intro n
    induction n using Nat.strong_induction_on with
    | _ n ih =>
      intro l hl
      rcases l with _ | ⟨a, t⟩
      · simp [windowStarts_zero_len]
      · rw [windowStarts_pos hd (by simp), List.map_cons, List.map_map]
        have hfun : ((fun i => ((a :: t).drop i).take d) ∘ (· + d))
            = fun i => (((a :: t).drop d).drop i).take d := by
          funext i
          simp only [Function.comp]
          rw [List.drop_drop, Nat.add_comm]
        rw [hfun]
        have hlen : ((a :: t).drop d).length = (a :: t).length - d := by
          rw [List.length_drop]
        have hrec : ((windowStarts ((a :: t).drop d).length d).map
            (fun i => (((a :: t).drop d).drop i).take d)).join = (a :: t).drop d := by
          refine ih (((a :: t).drop d).length) ?_ _ rfl
          rw [hlen]
          simp only [List.length_cons] at hl ⊢
          omega
        rw [hlen] at hrec
        rw [show ∀ (x : List α) L, (x :: L).join = x ++ L.join from fun x L => rfl,
          hrec, List.drop_zero, List.take_append_drop]
  exact main l.length l rfl

/-! ### Vector store properties -/

theorem batchOps_mem {b : List EmbeddedChunk} {op : String × EmbeddedChunk}
    (h : op ∈ batchOps b) : op.2 ∈ b ∧ ¬op.2.embedding.isEmpty ∧ op.1 = docId op.2 := by
  unfold batchOps at h
  obtain ⟨d, hd, rfl⟩ := List.mem_map.mp h
  obtain ⟨hdb, hde⟩ := List.mem_filter.mp hd
  exact ⟨hdb, by simpa using hde, rfl⟩

theorem upsert_mem {st : VStore} {op e : String × EmbeddedChunk}
    (he : e ∈ upsert st op) : e ∈ st ∨ e = op := by
  unfold upsert at he
  by_cases h : st.any (fun x => x.1 = op.1)
  · rw [if_pos h] at he
    obtain ⟨x, hx, hxe⟩ := List.mem_map.mp he
    by_cases hk : x.1 = op.1
    · right
      rw [if_pos hk] at hxe
      exact hxe.symm
    · left
      rw [if_neg hk] at hxe
      exact hxe ▸ hx
  · rw [if_neg h] at he
    rcases List.mem_append.mp he with he | he
    · exact Or.inl he
    · exact Or.inr (by simpa using he)

theorem bulkApply_mem : ∀ (ops : List (String × EmbeddedChunk)) (st : VStore)
    (e : String × EmbeddedChunk), e ∈ bulkApply st ops → e ∈ st ∨ e ∈ ops
  | [], _, _, he => Or.inl he
  | op :: rest, st, e, he => by
    rcases bulkApply_mem rest (upsert st op) e he with h | h
    · rcases upsert_mem h with h | h
      · exact Or.inl h
      · exact Or.inr (h ▸ List.mem_cons_self op rest)
    · exact Or.inr (List.mem_cons_of_mem op h)

theorem upsert_keys_nodup {st : VStore} {op : String × EmbeddedChunk}
    (h : (st.map Prod.fst).Nodup) : ((upsert st op).map Prod.fst).Nodup := by
  unfold upsert
  by_cases ha : st.any (fun x => x.1 = op.1)
  · rw [if_pos ha]
    have heq : (st.map (fun e => if e.1 = op.1 then op else e)).map Prod.fst
        = st.map Prod.fst := by
      rw [List.map_map]
      apply List.map_congr_left
      intro e _
      by_cases hk : e.1 = op.1
      · simp [Function.comp, hk]
      · simp [Function.comp, hk]
    rw [heq]
    exact h
  · rw [if_neg ha, List.map_append]
    have hop : op.1 ∉ st.map Prod.fst := by
      intro hmem
      obtain ⟨x, hx, hxe⟩ := List.mem_map.mp hmem
      exact ha (List.any_eq_true.mpr ⟨x, hx, by simp [hxe]⟩)
    simp only [List.map_cons, List.map_nil]
    rw [List.nodup_append]
    exact ⟨h, List.nodup_singleton _, by simpa [List.disjoint_singleton] using hop⟩

theorem bulkApply_keys_nodup : ∀ (ops : List (String × EmbeddedChunk)) (st : VStore),
    (st.map Prod.fst).Nodup → ((bulkApply st ops).map Prod.fst).Nodup
  | [], _, h => h
  | op :: rest, st, h => bulkApply_keys_nodup rest (upsert st op) (upsert_keys_nodup h)

theorem indexBatch_mem {bulk : List (String × EmbeddedChunk) → Bool}
    {acc : Nat × VStore} {b : List EmbeddedChunk} {e : String × EmbeddedChunk}
    (he : e ∈ (indexBatch bulk acc b).2) : e ∈ acc.2 ∨ ¬e.2.embedding.isEmpty := by
  unfold indexBatch at he
  by_cases h1 : (batchOps b).isEmpty
  · rw [if_pos h1] at he
    exact Or.inl he
  · rw [if_neg h1] at he
    by_cases h2 : bulk (batchOps b)
    · rw [if_pos h2] at he
      rcases bulkApply_mem _ _ _ he with h | h
      · exact Or.inl h
      · exact Or.inr (batchOps_mem h).2.1
    · rw [if_neg h2] at he
      rcases bulkApply_mem _ _ _ he with h | h
      · exact Or.inl h
      · exact Or.inr (batchOps_mem h).2.1

theorem indexBatch_keys_nodup {bulk : List (String × EmbeddedChunk) → Bool}
    {acc : Nat × VStore} {b : List EmbeddedChunk}
    (h : (acc.2.map Prod.fst).Nodup) :
    (((indexBatch bulk acc b).2).map Prod.fst).Nodup := by
  unfold indexBatch
  by_cases h1 : (batchOps b).isEmpty
  · rw [if_pos h1]
    exact h
  · rw [if_neg h1]
    by_cases h2 : bulk (batchOps b)
    · rw [if_pos h2]
      exact bulkApply_keys_nodup _ _ h
    · rw [if_neg h2]
      exact bulkApply_keys_nodup _ _ h

theorem foldl_indexBatch_mem {bulk : List (String × EmbeddedChunk) → Bool} :
    ∀ (bs : List (List EmbeddedChunk)) (acc : Nat × VStore)
    (e : String × EmbeddedChunk), e ∈ (bs.foldl (indexBatch bulk) acc).2 →
    e ∈ acc.2 ∨ ¬e.2.embedding.isEmpty
  | [], _, _, he => Or.inl he
  | b :: rest, acc, e, he => by
    rcases foldl_indexBatch_mem rest (indexBatch bulk acc b) e he with h | h
    · rcases indexBatch_mem h with h | h
      · exact Or.inl h
      · exact Or.inr h
    · exact Or.inr h

theorem foldl_indexBatch_keys_nodup {bulk : List (String × EmbeddedChunk) → Bool} :
    ∀ (bs : List (List EmbeddedChunk)) (acc : Nat × VStore),
    (acc.2.map Prod.fst).Nodup → (((bs.foldl (indexBatch bulk) acc).2).map Prod.fst).Nodup
  | [], _, h => h
  | b :: rest, acc, h =>
    foldl_indexBatch_keys_nodup rest (indexBatch bulk acc b) (indexBatch_keys_nodup h)

theorem indexDocuments_store_mem {bulk : List (String × EmbeddedChunk) → Bool}
    {bs : Nat} {docs : List EmbeddedChunk} {store : VStore}
    {e : String × EmbeddedChunk}
    (he : e ∈ (indexDocuments bulk bs docs store).2) :
    e ∈ store ∨ ¬e.2.embedding.isEmpty :=
  foldl_indexBatch_mem _ _ _ he

theorem indexDocuments_keys_nodup {bulk : List (String × EmbeddedChunk) → Bool}
    {bs : Nat} {docs : List EmbeddedChunk} {store : VStore}
    (h : (store.map Prod.fst).Nodup) :
    (((indexDocuments bulk bs docs store).2).map Prod.fst).Nodup :=
  foldl_indexBatch_keys_nodup _ _ h

theorem foldl_indexBatch_count_all :
    ∀ (bs : List (List EmbeddedChunk)) (acc : Nat × VStore),
    (∀ b ∈ bs, b ≠ [] ∧ ∀ x ∈ b, ¬x.embedding.isEmpty) →
    (bs.foldl (indexBatch (fun _ => false)) acc).1 = acc.1 + (bs.map List.length).sum
  | [], acc, _ => by simp
  | b :: rest, acc, hall => by
    obtain ⟨hne, hidx⟩ := hall b (List.mem_cons_self b rest)
    have hops : batchOps b = b.map (fun d => (docId d, d)) := by
      unfold batchOps
      rw [List.filter_eq_self.mpr]
      intro x hx
      simpa using hidx x hx
    have hopne : ¬(batchOps b).isEmpty := by
      rw [hops]
      simpa [List.isEmpty_iff] using hne
    have hstep : indexBatch (fun _ => false) acc b
        = (acc.1 + b.length, bulkApply acc.2 (batchOps b)) := by
      unfold indexBatch
      rw [if_neg hopne, if_neg (by simp)]
    rw [List.foldl_cons, hstep,
      foldl_indexBatch_count_all rest _ (fun x hx => hall x (List.mem_cons_of_mem b hx))]
    simp
    omega

theorem indexDocuments_count_all {bs : Nat} (hbs : 0 < bs)
    (docs : List EmbeddedChunk) (store : VStore)
    (hall : ∀ x ∈ docs, ¬x.embedding.isEmpty) :
    (indexDocuments (fun _ => false) bs docs store).1 = docs.length := by
  unfold indexDocuments
  rw [foldl_indexBatch_count_all]
  · have hjoin := batches_join hbs docs
    have hlen := congrArg List.length hjoin
    rw [List.length_join] at hlen
    rw [List.map_map] at hlen ⊢
    simpa using hlen
  · intro b hb
    obtain ⟨i, hi, rfl⟩ := List.mem_map.mp hb
    have hilt : i < docs.length := mem_windowStarts_lt hbs hi
    constructor
    · have h1 : (docs.drop i).length = docs.length - i := List.length_drop i docs
      intro hcon
      have := congrArg List.length hcon
      rw [List.length_take, h1] at this
      simp at this
      omega
    · intro x hx
      have hsub : List.Sublist ((docs.drop i).take bs) docs :=
        (List.take_sublist _ _).trans (List.drop_sublist _ _)
      exact hall x (hsub.mem hx)

/-! ### Retrieval assembly properties -/

theorem dedupByKey_sublist : ∀ (l : List SearchResult) (seen : List String),
    List.Sublist (dedupByKey l seen) l
  | [], _ => List.Sublist.refl _
  | r :: rest, seen => by
    unfold dedupByKey
    by_cases h : dedupKey r ∈ seen
    · rw [if_pos h]
      exact (dedupByKey_sublist rest seen).cons r
    · rw [if_neg h]
      exact (dedupByKey_sublist rest (dedupKey r :: seen)).cons₂ r

theorem dedupByKey_keys : ∀ (l : List SearchResult) (seen : List String),
    ((dedupByKey l seen).map dedupKey).Nodup
    ∧ ∀ r ∈ dedupByKey l seen, dedupKey r ∉ seen
  | [], _ => by
    constructor
    · simp [dedupByKey]
    · simp [dedupByKey]
  | r :: rest, seen => by
    unfold dedupByKey
    by_cases h : dedupKey r ∈ seen
    · rw [if_pos h]
      exact dedupByKey_keys rest seen
    · rw [if_neg h]
      obtain ⟨hnd, hseen⟩ := dedupByKey_keys rest (dedupKey r :: seen)
      constructor
      · rw [List.map_cons, List.nodup_cons]
        refine ⟨?_, hnd⟩
        intro hmem
        obtain ⟨x, hx, hxe⟩ := List.mem_map.mp hmem
        exact hseen x hx (hxe ▸ List.mem_cons_self _ _)
      · intro x hx
        rcases List.mem_cons.mp hx with hx | hx
        · subst hx
          exact h
        · intro hcon
          exact hseen x hx (List.mem_cons_of_mem _ hcon)

theorem mem_pair_sublist {α : Type} [DecidableEq α] {a b : α} :
    ∀ {l : List α}, a ∈ l → b ∈ l → a ≠ b →
    List.Sublist [a, b] l ∨ List.Sublist [b, a] l := by
  intro l
  induction l with
  | nil => intro h; simp at h
  | cons x t ih =>
    intro ha hb hab
    by_cases hax : a = x
    · subst hax
      have hbt : b ∈ t := by
        rcases List.mem_cons.mp hb with h | h
        · exact absurd h.symm hab
        · exact h
      exact Or.inl (List.cons_sublist_cons.mpr (List.singleton_sublist.mpr hbt))
    · by_cases hbx : b = x
      · subst hbx
        have hat : a ∈ t := by
          rcases List.mem_cons.mp ha with h | h
          · exact absurd h hax
          · exact h
        exact Or.inr (List.cons_sublist_cons.mpr (List.singleton_sublist.mpr hat))
      · have hat : a ∈ t := by
          rcases List.mem_cons.mp ha with h | h
          · exact absurd h hax
          · exact h
        have hbt : b ∈ t := by
          rcases List.mem_cons.mp hb with h | h
          · exact absurd h hbx
          · exact h
        rcases ih hat hbt hab with h | h
        · exact Or.inl (h.cons x)
        · exact Or.inr (h.cons x)

theorem pair_sublist_asymm {α : Type} :
    ∀ {l : List α} {a b : α}, l.Nodup → List.Sublist [a, b] l →
      List.Sublist [b, a] l → a = b := by
  intro l
  induction l with
  | nil =>
    intro a b _ hab _
    exact absurd hab (by simp)
  | cons x t ih =>
    intro a b hnd hab hba
    rw [List.nodup_cons] at hnd
    by_cases hax : a = x
    · by_cases hbx : b = x
      · rw [hax, hbx]
      · have h1 : List.Sublist [b, a] t := by
          cases hba with
          | cons _ h => exact h
          | cons₂ _ h => exact absurd rfl hbx
        have ha_t : a ∈ t := h1.mem (by simp)
        rw [hax] at ha_t
        exact absurd ha_t hnd.1
    · have h1 : List.Sublist [a, b] t := by
        cases hab with
        | cons _ h => exact h
        | cons₂ _ h => exact absurd rfl hax
      by_cases hbx : b = x
      · have hb_t : b ∈ t := h1.mem (by simp)
        rw [hbx] at hb_t
        exact absurd hb_t hnd.1
      · have h2 : List.Sublist [b, a] t := by
          cases hba with
          | cons _ h => exact h
          | cons₂ _ h => exact absurd rfl hbx
        exact ih hnd.2 h1 h2

/-! ### Runner and agent behaviour -/

theorem pooledResults_judge (em : String → Except String (List ℚ))
    (se : List ℚ → String → Nat → List SearchResult)
    (ju j : String → Except String String) (ex : String → ExtractResult)
    (techId : String) (k : Nat) : ∀ (qs : List String),
    pooledResults ⟨em, se, j, ex⟩ techId k qs = pooledResults ⟨em, se, ju, ex⟩ techId k qs
  | [] => rfl
  | q :: rest => by
    unfold pooledResults
    rw [pooledResults_judge em se ju j ex techId k rest]

theorem retrieveContext_judge (env : AgentEnv) (j : String → Except String String)
    (techId : String) (queries : List String) (k : Nat) :
    retrieveContext { env with judge := j } techId queries k
      = retrieveContext env techId queries k := by
  cases env with
  | mk em se ju ex =>
    unfold retrieveContext
    rw [pooledResults_judge em se ju j ex techId k queries]

theorem evaluateAgent_empty {env : AgentEnv} {ag : AgentSpec} {k : Nat}
    {techId : String}
    (hctx : retrieveContext env techId ag.queries k = .ok "") (j : String → Except String String) :
    evaluateAgent { env with judge := j } ag k techId
      = .ok (searchFailedResult ag.criterionName) := by
  unfold evaluateAgent
  rw [retrieveContext_judge env j techId ag.queries k, hctx]
  rfl


theorem runFullEvaluation_ok {env : AgentEnv} {nov prog fld : AgentSpec} {k : Nat}
    {techId : String} {res : FullEvaluationResult}
    (h : runFullEvaluation env nov prog fld k techId = .ok res) :
    ∃ eN eP eF, evaluateAgent env nov k techId = .ok eN
      ∧ evaluateAgent env prog k techId = .ok eP
      ∧ evaluateAgent env fld k techId = .ok eF
      ∧ res = mkFullResult techId eN eP eF := by
  unfold runFullEvaluation at h
  rcases hN : evaluateAgent env nov k techId with e | eN <;> rw [hN] at h
  · simp [bind, Except.bind] at h
  rcases hP : evaluateAgent env prog k techId with e | eP <;> rw [hP] at h
  · simp [bind, Except.bind] at h
  rcases hF : evaluateAgent env fld k techId with e | eF <;> rw [hF] at h
  · simp [bind, Except.bind] at h
  simp only [bind, Except.bind, pure, Except.pure, Except.ok.injEq] at h
  exact ⟨eN, eP, eF, rfl, rfl, rfl, h.symm⟩

theorem pooledResults_ok {env : AgentEnv} {techId : String} {k : Nat}
    (hembed : ∀ q, ∃ v, env.embed q = .ok v) :
    ∀ qs : List String, ∃ pool, pooledResults env techId k qs = .ok pool
  | [] => ⟨[], rfl⟩
  | q :: rest => by
    obtain ⟨v, hv⟩ := hembed q
    obtain ⟨pool, hp⟩ := @pooledResults_ok env techId k hembed rest
    refine ⟨env.search v techId k ++ pool, ?_⟩
    unfold pooledResults
    rw [hv]
    simp only [bind, Except.bind]
    rw [hp]
    rfl

theorem retrieveContext_of_pool {env : AgentEnv} {techId : String} {k : Nat}
    {queries : List String} {pool : List SearchResult}
    (hp : pooledResults env techId k queries = .ok pool) :
    retrieveContext env techId queries k
      = .ok (renderContext (assembleResults pool k queries.length)) := by
  unfold retrieveContext
  rw [hp]
  rfl

theorem evaluateAgent_total {env : AgentEnv}
    (hembed : ∀ q, ∃ v, env.embed q = .ok v)
    (hjudge : ∀ p, ∃ r, env.judge p = .ok r)
    (ag : AgentSpec) (k : Nat) (techId : String) :
    ∃ e, evaluateAgent env ag k techId = .ok e := by
  obtain ⟨pool, hp⟩ := pooledResults_ok hembed ag.queries
  have hctx := retrieveContext_of_pool hp
  unfold evaluateAgent
  rw [hctx]
  by_cases hemp : (renderContext (assembleResults pool k ag.queries.length)).isEmpty
  · refine ⟨searchFailedResult ag.criterionName, ?_⟩
    simp only [bind, Except.bind, hemp, if_true]
    rfl
  · obtain ⟨r, hr⟩ := hjudge
      (ag.buildPrompt (renderContext (assembleResults pool k ag.queries.length)) techId)
    refine ⟨parseEvaluationResponse ag.criterionName env.extract r, ?_⟩
    simp only [bind, Except.bind, hemp, if_false, Bool.false_eq_true]
    rw [hr]
    rfl

theorem generateSummary_low_mem {results : List EvaluationResult}
    {r : EvaluationResult} (hr : r ∈ results) (hscore : r.score < 3)
    (hpass : r.pass_status = false) (s : ℚ) (p : Bool) :
    (r.criterion ++ ": " ++ r.grade) ∈ (generateSummary results s p).weak_points
    ∧ (r.criterion ++ " 보완 필요: " ++ r.comments.take 100)
        ∈ (generateSummary results s p).recommendations := by
  constructor
  · exact List.mem_map.mpr ⟨r, List.mem_filter.mpr ⟨hr, by simpa using hscore⟩, rfl⟩
  · exact List.mem_map.mpr ⟨r, List.mem_filter.mpr ⟨hr, by simp [hpass]⟩, rfl⟩

/-! ### Claim theorems -/

/-- C3, counterexample: with chunk size 10 and overlap 11 (overlap greater
than the chunk size) the chunker does not fail with a configuration error:
it silently returns the empty chunk list, although the document is
non-empty. -/
theorem c3_counterexample :
    combinedText doc6 ≠ [] ∧ chunkDocument 10 11 doc6 = .ok [] := by
  decide

/-- C3, amended: no validation happens at setup; when overlap equals chunk
size the chunking call itself raises the zero-step `range` error, and when
overlap exceeds chunk size the `range` is empty and the call silently
returns the empty chunk list (no error, no infinite loop). -/
theorem c3_nonpositive_stride (S O : Nat) (doc : Document) (h : S ≤ O) :
    (S = O → chunkDocument S O doc = .error "range() arg 3 must not be zero")
    ∧ (S < O → chunkDocument S O doc = .ok []) := by
  constructor
  · intro he
    unfold chunkDocument
    rw [if_pos he]
  · intro hlt
    unfold chunkDocument
    rw [if_neg (by omega), if_pos hlt]

/-- C3, witness: both branches of the amended claim evaluated on the
concrete document. -/
theorem c3_nonpositive_stride_witness :
    chunkDocument 10 10 doc6 = .error "range() arg 3 must not be zero"
    ∧ chunkDocument 10 11 doc6 = .ok [] :=
  ⟨(c3_nonpositive_stride 10 10 doc6 (by decide)).1 rfl,
   (c3_nonpositive_stride 10 11 doc6 (by decide)).2 (by decide)⟩

/-- C6, counterexample: with chunk size 3 and overlap 1 on `doc6`, the
emitted chunks' character ranges are
`[(0,3), (2,5), (4,7), (6,9), (8,11), (12,15), (14,15)]`; position 11 of
the 15-character buffer is inside no emitted chunk's range (the
whitespace-only window at offset 10 was dropped), so the union of the
chunks' ranges does not cover the buffer, and the consecutive chunks at
offsets 8 and 12 overlap by 0 characters rather than the overlap 1. -/
theorem c6_counterexample :
    (1 : Nat) < 3
    ∧ chunkRanges 3 1 doc6 = [(0, 3), (2, 5), (4, 7), (6, 9), (8, 11), (12, 15), (14, 15)]
    ∧ 11 < (combinedText doc6).length
    ∧ (∀ r ∈ chunkRanges 3 1 doc6, ¬(r.1 ≤ 11 ∧ 11 < r.2)) := by
  decide

/-- C6, amended: for overlap `O < S`, the sliding windows themselves cover
the whole combined buffer, consecutive windows overlap by exactly `O`
characters whenever the later window is not clipped by the buffer end, and
the emitted chunks are exactly the windows that are not whitespace-only (a
subsequence of all windows), so whitespace-only windows can leave gaps in
the emitted chunks' coverage and shrink their pairwise overlap. -/
theorem c6_window_coverage (S O : Nat) (doc : Document) (hO : O < S) :
    (∀ p, p < (combinedText doc).length →
      ∃ i ∈ windowStarts (combinedText doc).length (S - O),
        i ≤ p ∧ p < min (i + S) (combinedText doc).length)
    ∧ (∀ j, (j + 1) * (S - O) + S ≤ (combinedText doc).length →
        (windowStarts (combinedText doc).length (S - O)).get? j = some (j * (S - O))
        ∧ (windowStarts (combinedText doc).length (S - O)).get? (j + 1)
            = some ((j + 1) * (S - O))
        ∧ min (j * (S - O) + S) (combinedText doc).length - (j + 1) * (S - O) = O)
    ∧ List.Sublist
        (keptStarts S (combinedText doc) (windowStarts (combinedText doc).length (S - O)))
        (windowStarts (combinedText doc).length (S - O))
    ∧ ∃ chunks, chunkDocument S O doc = .ok chunks
        ∧ chunks.map (·.content) = (keptStarts S (combinedText doc)
            (windowStarts (combinedText doc).length (S - O))).map
            (fun i => pstrip (((combinedText doc).drop i).take S))
        ∧ chunks.length = (chunkRanges S O doc).length := by
  have hd : 0 < S - O := by omega
  refine ⟨?_, ?_, List.filter_sublist _, ?_⟩
  · intro p hp
    obtain ⟨i, hi, hip, hpd⟩ := windowStarts_cover hd hp
    refine ⟨i, hi, hip, ?_⟩
    have hdS : S - O ≤ S := Nat.sub_le _ _
    omega
  · intro j hj
    have hlt1 : (j + 1) * (S - O) < (combinedText doc).length := by
      have : 0 < S := by omega
      omega
    have hlt0 : j * (S - O) < (combinedText doc).length := by
      have hm : j * (S - O) ≤ (j + 1) * (S - O) :=
        Nat.mul_le_mul_right _ (by omega)
      omega
    refine ⟨windowStarts_get? j ((lt_numWindows_iff hd j).mpr hlt0),
      windowStarts_get? (j + 1) ((lt_numWindows_iff hd (j + 1)).mpr hlt1), ?_⟩
    have h1 : (j + 1) * (S - O) = j * (S - O) + (S - O) := by ring
    omega
  · refine ⟨emitChunks doc.tech_id doc.file_name S (pagePositions doc) (combinedText doc)
      (windowStarts (combinedText doc).length (S - O)) 0, ?_, ?_, ?_⟩
    · unfold chunkDocument
      rw [if_neg (by omega), if_neg (by omega)]
    · exact emitChunks_contents doc.tech_id doc.file_name S (pagePositions doc)
        (combinedText doc) _ 0
    · have hc := emitChunks_contents doc.tech_id doc.file_name S (pagePositions doc)
        (combinedText doc) (windowStarts (combinedText doc).length (S - O)) 0
      have := congrArg List.length hc
      simpa [chunkRanges] using this

/-- C6, witness: the amended claim evaluated at chunk size 3, overlap 1 on
the concrete document; position 0 is covered by a window. -/
theorem c6_window_coverage_witness :
    ∃ i ∈ windowStarts (combinedText doc6).length 2,
      i ≤ 0 ∧ 0 < min (i + 3) (combinedText doc6).length :=
  (c6_window_coverage 3 1 doc6 (by decide)).1 0 (by decide)

/-- C9: every chunk list produced by a single chunker invocation, sliding
window or section based, has chunk indices exactly `0, 1, ..., n-1` in
order (whitespace-only windows consume no index), contents that are
non-empty after trimming, and non-empty page-number lists. -/
theorem c9_chunk_invariants :
    (∀ (S O : Nat) (doc : Document) (chunks : List DocumentChunk),
      chunkDocument S O doc = .ok chunks → chunkInvariant chunks)
    ∧ (∀ (S O : Nat) (doc : Document) (chunks : List DocumentChunk),
      chunkBySection S O doc = .ok chunks → chunkInvariant chunks) :=
  ⟨fun _ _ _ _ h => chunkDocument_invariant h,
   fun _ _ _ _ h => chunkBySection_invariant h⟩

/-- C9, witness: the invariants hold for the concrete chunk lists of
`doc6` under both strategies. -/
theorem c9_chunk_invariants_witness :
    chunkInvariant ((chunkDocument 3 1 doc6).toOption.getD [])
    ∧ chunkInvariant ((chunkBySection 3 1 doc6).toOption.getD []) :=
  ⟨c9_chunk_invariants.1 3 1 doc6 _ rfl, c9_chunk_invariants.2 3 1 doc6 _ rfl⟩

/-- C1: for every completed evaluation run, the overall score is
`(noveltyScore*0.5 + progressScore*0.5)*10 + fieldScore*10`, the overall
pass flag is true exactly when all three criterion pass flags are set and
the overall score is at least 70, and in particular three scores of
exactly 3 yield overall score 60 and a false overall pass flag. -/
theorem c1_overall_scoring (env : AgentEnv) (nov prog fld : AgentSpec) (k : Nat)
    (techId : String) (res : FullEvaluationResult)
    (h : runFullEvaluation env nov prog fld k techId = .ok res) :
    res.overall_score = (res.novelty.score * (1/2) + res.progressiveness.score * (1/2)) * 10
        + res.field_applicability.score * 10
    ∧ (res.overall_pass = true ↔
        (res.novelty.pass_status = true ∧ res.progressiveness.pass_status = true
          ∧ res.field_applicability.pass_status = true ∧ 70 ≤ res.overall_score))
    ∧ (res.novelty.score = 3 → res.progressiveness.score = 3 →
        res.field_applicability.score = 3 →
        res.overall_score = 60 ∧ res.overall_pass = false) := by
  obtain ⟨eN, eP, eF, hN, hP, hF, rfl⟩ := runFullEvaluation_ok h
  refine ⟨rfl, ?_, ?_⟩
  · simp only [mkFullResult, Bool.and_eq_true, decide_eq_true_eq]
    tauto
  · intro h1 h2 h3
    simp only [mkFullResult] at h1 h2 h3 ⊢
    rw [h1, h2, h3]
    constructor
    · norm_num
    · have hlt : ¬ (70 : ℚ) ≤ ((3 : ℚ) * (1/2) + 3 * (1/2)) * 10 + 3 * 10 := by norm_num
      rw [decide_eq_false hlt, Bool.and_false]

/-- C1, witness: in the all-services-succeed run every criterion scores
exactly 3, and the claim's formula then gives overall score 60 with a
false overall pass flag. -/
theorem c1_overall_scoring_witness :
    c1res.novelty.score = 3 ∧ c1res.overall_score = 60 ∧ c1res.overall_pass = false := by
  have h := c1_overall_scoring okEnv (noveltyAgent samplePrompt) (progressAgent samplePrompt)
    (fieldAgent samplePrompt) 10 "T1" c1res rfl
  exact ⟨by decide, h.2.2 (by decide) (by decide) (by decide)⟩

/-- C2, counterexample: a judgment-service failure is not absorbed: with a
judge that raises, `run_full_evaluation` itself propagates the error
instead of returning an outcome with low-scoring criterion results. -/
theorem c2_counterexample :
    runFullEvaluation badJudgeEnv (noveltyAgent samplePrompt) (progressAgent samplePrompt)
      (fieldAgent samplePrompt) 10 "T1" = .error "ServiceUnavailable" := by
  decide

/-- C2, amended: search failures are absorbed inside the vector store
(modelled by `search` being total) and parse failures degrade to the
parsing-error result, but embedding and judgment exceptions propagate out
of `run_full_evaluation`; when the embedder and the judgment service never
raise, the runner always returns a complete outcome. -/
theorem c2_total_when_services_ok (env : AgentEnv) (nov prog fld : AgentSpec)
    (k : Nat) (techId : String)
    (hembed : ∀ q, ∃ v, env.embed q = .ok v)
    (hjudge : ∀ p, ∃ r, env.judge p = .ok r) :
    ∃ res, runFullEvaluation env nov prog fld k techId = .ok res := by
  obtain ⟨eN, hN⟩ := evaluateAgent_total hembed hjudge nov k techId
  obtain ⟨eP, hP⟩ := evaluateAgent_total hembed hjudge prog k techId
  obtain ⟨eF, hF⟩ := evaluateAgent_total hembed hjudge fld k techId
  refine ⟨mkFullResult techId eN eP eF, ?_⟩
  unfold runFullEvaluation
  rw [hN]
  simp only [bind, Except.bind]
  rw [hP]
  rw [hF]
  rfl

/-- C2, witness: the amended claim applied to the concrete environment in
which every service succeeds. -/
theorem c2_total_when_services_ok_witness :
    ∃ res, runFullEvaluation okEnv (noveltyAgent samplePrompt) (progressAgent samplePrompt)
      (fieldAgent samplePrompt) 10 "T1" = .ok res :=
  c2_total_when_services_ok okEnv (noveltyAgent samplePrompt) (progressAgent samplePrompt)
    (fieldAgent samplePrompt) 10 "T1" (fun _ => ⟨[1], rfl⟩) (fun _ => ⟨"resp", rfl⟩)

/-- C5: for every pooled result list, the assembled context is the
rendering of the assembled results, in which every deduplication key
appears at most once, results are ordered by score descending with ties
kept in first-seen order, at most `k * (number of queries)` results
survive, and an empty pool renders as the empty string. -/
theorem c5_assembly (env : AgentEnv) (techId : String) (queries : List String)
    (k : Nat) (pool : List SearchResult)
    (hp : pooledResults env techId k queries = .ok pool) :
    retrieveContext env techId queries k
      = .ok (renderContext (assembleResults pool k queries.length))
    ∧ ((assembleResults pool k queries.length).map dedupKey).Nodup
    ∧ List.Pairwise scoreGE (assembleResults pool k queries.length)
    ∧ (∀ a b : SearchResult, a.score = b.score →
        List.Sublist [a, b] (assembleResults pool k queries.length) →
        List.Sublist [a, b] (dedupByKey pool []))
    ∧ (assembleResults pool k queries.length).length ≤ k * queries.length
    ∧ (pool = [] → retrieveContext env techId queries k = .ok "") := by
  have hdk : ((dedupByKey pool []).map dedupKey).Nodup := (dedupByKey_keys pool []).1
  have hdn : (dedupByKey pool []).Nodup := hdk.of_map dedupKey
  have hperm := List.perm_insertionSort scoreGE (dedupByKey pool [])
  have hsortnd : (List.insertionSort scoreGE (dedupByKey pool [])).Nodup :=
    (hperm.nodup_iff).mpr hdn
  have htake : List.Sublist (assembleResults pool k queries.length)
      (List.insertionSort scoreGE (dedupByKey pool [])) := List.take_sublist _ _
  refine ⟨retrieveContext_of_pool hp, ?_, ?_, ?_, ?_, ?_⟩
  · have h1 : ((List.insertionSort scoreGE (dedupByKey pool [])).map dedupKey).Nodup :=
      ((hperm.map dedupKey).nodup_iff).mpr hdk
    exact h1.sublist (htake.map dedupKey)
  · exact (List.sorted_insertionSort scoreGE (dedupByKey pool [])).sublist htake
  · intro a b hsc hab
    have hab' : List.Sublist [a, b] (List.insertionSort scoreGE (dedupByKey pool [])) :=
      hab.trans htake
    have hne : a ≠ b := by
      intro he
      subst he
      have : [a, a].Nodup := hsortnd.sublist hab'
      simp at this
    have hma : a ∈ dedupByKey pool [] :=
      hperm.mem_iff.mp (hab'.mem (by simp))
    have hmb : b ∈ dedupByKey pool [] :=
      hperm.mem_iff.mp (hab'.mem (by simp))
    rcases mem_pair_sublist hma hmb hne with h | h
    · exact h
    · have hge : scoreGE b a := le_of_eq hsc
      have hba' := List.pair_sublist_insertionSort hge h
      exact absurd (pair_sublist_asymm hsortnd hab' hba') hne
  · exact List.length_take_le _ _
  · intro he
    subst he
    have h0 := retrieveContext_of_pool hp
    have h1 : renderContext (assembleResults [] k queries.length) = "" := by
      unfold assembleResults
      rw [show dedupByKey [] [] = [] from rfl,
        show List.insertionSort scoreGE [] = [] from rfl, List.take_nil]
      rfl
    rw [h1] at h0
    exact h0

/-- C5, witness: for the concrete pool `[rA, rB, rC]` (a key duplicate and
a score tie), the theorem applies, and the tied pair `rA, rB` surviving in
that order indeed occurs in that order in the deduplicated pool. -/
theorem c5_assembly_witness :
    retrieveContext env5 "T" ["q"] 10
      = .ok (renderContext (assembleResults [rA, rB, rC] 10 1))
    ∧ List.Sublist [rA, rB] (dedupByKey [rA, rB, rC] []) := by
  have h := c5_assembly env5 "T" ["q"] 10 [rA, rB, rC] (by decide)
  exact ⟨h.1, h.2.2.2.1 rA rB (by decide) (by decide)⟩

/-- C7: whenever the assembled context for a criterion is empty, the
criterion evaluation short-circuits to the zero-score `"검색실패"` result
regardless of the judgment service (which is never consulted), and in any
completed full run with that criterion in the novelty slot, the criterion
still appears in the summary's weak points and recommendations. -/
theorem c7_empty_retrieval (env : AgentEnv) (ag prog fld : AgentSpec) (k : Nat)
    (techId : String)
    (hctx : retrieveContext env techId ag.queries k = .ok "") :
    (∀ j, evaluateAgent { env with judge := j } ag k techId
        = .ok (searchFailedResult ag.criterionName))
    ∧ ∀ res, runFullEvaluation env ag prog fld k techId = .ok res →
        res.novelty = searchFailedResult ag.criterionName
        ∧ (ag.criterionName ++ ": " ++ "검색실패") ∈ res.summary.weak_points
        ∧ (ag.criterionName ++ " 보완 필요: "
            ++ ("관련 문서를 찾을 수 없습니다." : String).take 100)
            ∈ res.summary.recommendations := by
  have hev : evaluateAgent env ag k techId = .ok (searchFailedResult ag.criterionName) := by
    have h := evaluateAgent_empty hctx env.judge
    exact h
  refine ⟨evaluateAgent_empty hctx, fun res hres => ?_⟩
  obtain ⟨eN, eP, eF, hN, hP, hF, rfl⟩ := runFullEvaluation_ok hres
  rw [hev] at hN
  have heN : eN = searchFailedResult ag.criterionName := by
    injection hN with h
    exact h.symm
  subst heN
  refine ⟨rfl, ?_, ?_⟩
  · exact (generateSummary_low_mem (List.mem_cons_self _ _)
      (by norm_num [searchFailedResult]) rfl _ _).1
  · exact (generateSummary_low_mem (List.mem_cons_self _ _)
      (by norm_num [searchFailedResult]) rfl _ _).2

/-- C7, witness: with every search empty, the novelty evaluation
short-circuits to the `"검색실패"` result even under a raising judge, and
the criterion appears in the final summary's weak points. -/
theorem c7_empty_retrieval_witness :
    evaluateAgent { emptySearchEnv with judge := fun _ => .error "down" }
      (noveltyAgent samplePrompt) 10 "T1" = .ok (searchFailedResult "신규성")
    ∧ ("신규성" ++ ": " ++ "검색실패") ∈ c7res.summary.weak_points
    ∧ ("신규성" ++ " 보완 필요: " ++ ("관련 문서를 찾을 수 없습니다." : String).take 100)
        ∈ c7res.summary.recommendations := by
  have h := c7_empty_retrieval emptySearchEnv (noveltyAgent samplePrompt)
    (progressAgent samplePrompt) (fieldAgent samplePrompt) 10 "T1" (by decide)
  have h2 := h.2 c7res rfl
  exact ⟨h.1 _, h2.2.1, h2.2.2⟩

/-- C8: the batch embedding returns exactly one embedded record per input
chunk in input order; a chunk whose (truncated) embedding call fails is
emitted with an empty vector and the error marker while keeping its
identifying fields, and a successful call attaches its vector with no
marker — so one failure never aborts the rest of the batch. -/
theorem c8_batch_embedding (service : List Char → Except String (List ℚ))
    (chunks : List DocumentChunk) :
    (createEmbeddingsBatch service chunks).length = chunks.length
    ∧ (∀ i : Nat, (createEmbeddingsBatch service chunks).get? i
        = (chunks.get? i).map (embedChunk service))
    ∧ (∀ (c : DocumentChunk) (e : String), service (c.content.take 25000) = .error e →
        (embedChunk service c).embedding = []
        ∧ (embedChunk service c).embedding_error = some e
        ∧ (embedChunk service c).tech_id = c.tech_id
        ∧ (embedChunk service c).chunk_index = c.chunk_index
        ∧ (embedChunk service c).content = c.content)
    ∧ (∀ (c : DocumentChunk) (v : List ℚ), service (c.content.take 25000) = .ok v →
        (embedChunk service c).embedding = v
        ∧ (embedChunk service c).embedding_error = none) := by
  have hmap : createEmbeddingsBatch service chunks = chunks.map (embedChunk service) := by
    induction chunks with
    | nil => rfl
    | cons c rest ih => rw [createEmbeddingsBatch, ih, List.map_cons]
  refine ⟨by rw [hmap, List.length_map], ?_, ?_, ?_⟩
  · intro i
    rw [hmap, List.get?_map]
  · intro c e he
    unfold embedChunk createEmbedding
    rw [he]
    exact ⟨rfl, rfl, rfl, rfl, rfl⟩
  · intro c v hv
    unfold embedChunk createEmbedding
    rw [hv]
    exact ⟨rfl, rfl⟩

/-- C8, witness: with a service failing exactly on the second chunk's
content, the batch still yields one record per chunk in order, and the
failing chunk's record carries the empty vector and the error marker. -/
theorem c8_batch_embedding_witness :
    (createEmbeddingsBatch c8service [c8good, c8bad]).length = 2
    ∧ (createEmbeddingsBatch c8service [c8good, c8bad]).get? 1
        = some (embedChunk c8service c8bad)
    ∧ (embedChunk c8service c8bad).embedding = []
    ∧ (embedChunk c8service c8bad).embedding_error = some "boom" := by
  have h := c8_batch_embedding c8service [c8good, c8bad]
  have hb := h.2.2.1 c8bad "boom" (by decide)
  exact ⟨h.1, by rw [h.2.1 1] ; rfl, hb.1, hb.2.1⟩

/-- C10: a judgment response whose extracted JSON parses but has no
`"score"` field is given the default score 3, the grade `"보통"`, and a
true pass flag. -/
theorem c10_default_score (criterionName : String)
    (extract : String → ExtractResult) (response : String) (data : JudgeData)
    (hx : extract response = .ok data) (hs : data.score = none) :
    parseEvaluationResponse criterionName extract response
      = { criterion := criterionName, score := 3, grade := "보통",
          evidence := data.evidence.getD [], comments := data.comments.getD "",
          pass_status := true, sub_scores := data.sub_scores } := by
  unfold parseEvaluationResponse
  rw [hx]
  simp only [hs, Option.getD_none]
  have hg : gradeMap (pyRound ((3 : ℚ))) = "보통" := by decide
  have hp3 : decide ((3 : ℚ) ≤ (3 : ℚ)) = true := by decide
  rw [hg, hp3]

/-- C10, witness: the default applied to a concrete score-less judgment
object. -/
theorem c10_default_score_witness :
    parseEvaluationResponse "신규성" c10extract "resp"
      = { criterion := "신규성", score := 3, grade := "보통", evidence := [],
          comments := "", pass_status := true, sub_scores := none } :=
  c10_default_score "신규성" c10extract "resp"
    { score := none, evidence := none, comments := none, sub_scores := none } rfl rfl

/-- C4, counterexample: indexing `[dGood, dEmpty]` (one record with an
empty vector) through a bulk call that reports no errors returns the count
2 although only one record was indexed — skipped records are counted; and
the `LocalVectorStore` variant does not skip the empty-vector record at
all and reports it as indexed. -/
theorem c4_counterexample :
    (indexDocuments (fun _ => false) 100 [dGood, dEmpty] []).1 = 2
    ∧ ((indexDocuments (fun _ => false) 100 [dGood, dEmpty] []).2).length = 1
    ∧ localIndexDocuments [dEmpty] [] = (1, [dEmpty]) := by
  decide

/-- C4, amended: the OpenSearch store never writes a record whose vector
is empty or missing, and id-keyed writes keep the key set duplicate-free
(re-indexing overwrites rather than duplicates); but the returned count
adds the full length of every batch whose error-free bulk call indexed at
least one record, so skipped records inside such batches are counted —
only when no record is skipped does the count equal the number of records
indexed; the `LocalVectorStore` variant appends everything unconditionally
and returns the input length. -/
theorem c4_index_documents (bulk : List (String × EmbeddedChunk) → Bool) (bs : Nat)
    (docs : List EmbeddedChunk) (store : VStore) :
    (∀ e ∈ (indexDocuments bulk bs docs store).2, e ∈ store ∨ ¬e.2.embedding.isEmpty)
    ∧ ((store.map Prod.fst).Nodup →
        (((indexDocuments bulk bs docs store).2).map Prod.fst).Nodup)
    ∧ (0 < bs → (∀ x ∈ docs, ¬x.embedding.isEmpty) →
        (indexDocuments (fun _ => false) bs docs store).1 = docs.length)
    ∧ ∀ (lstore : List EmbeddedChunk),
        localIndexDocuments docs lstore = (docs.length, lstore ++ docs) :=
  ⟨fun _ he => indexDocuments_store_mem he,
   fun h => indexDocuments_keys_nodup h,
   fun hbs hall => indexDocuments_count_all hbs docs store hall,
   fun _ => rfl⟩

/-- C4, witness: the amended claim evaluated on a concrete store: the
empty-vector record stays out of the store, keys stay duplicate-free, and
an all-indexable batch is counted exactly. -/
theorem c4_index_documents_witness :
    (∀ e ∈ (indexDocuments (fun _ => false) 100 [dGood, dEmpty] []).2,
      e ∈ ([] : VStore) ∨ ¬e.2.embedding.isEmpty)
    ∧ (((indexDocuments (fun _ => false) 100 [dGood, dEmpty] []).2).map Prod.fst).Nodup
    ∧ (indexDocuments (fun _ => false) 100 [dGood] []).1 = 1 := by
  have h1 := c4_index_documents (fun _ => false) 100 [dGood, dEmpty] []
  have h2 := c4_index_documents (fun _ => false) 100 [dGood] []
  exact ⟨h1.1, h1.2.1 (by decide),
    h2.2.2.1 (by decide) (by decide)⟩

end Handbox
